import Mathlib

/-!
Verification of the MIDI track/channel rewriting engine: the event-timeline
conversions, the drum-track merger (MidiFile_combiner_6to5.py) and the
track filtering / channel standardization / bass relocation pipeline
(MidiFile_Filter.py), embedded shallowly as Lean functions.
-/

/-- Shallow embedding of a mido message: the `type` string, the meta flag,
an optional channel (`none` models the absence of a `channel` attribute),
note and velocity payload, and the `time` field (mido stores an integer
which the source code freely overwrites, so it is an `Int` here). -/
structure Msg where
  type : String
  is_meta : Bool
  channel : Option Nat
  note : Nat
  velocity : Nat
  time : Int
deriving DecidableEq

/-- Accumulator form of `get_abs_times` in `merge_drum_tracks`
(MidiFile_combiner_6to5.py, lines 11-17): a running sum of delta times,
each message copied with `time=0`. -/
def getAbs : List Msg → Int → List (Int × Msg)
  | [], _ => []
  | m :: ms, t => (t + m.time, { m with time := 0 }) :: getAbs ms (t + m.time)

/-- `get_abs_times` with the source's initial `abs_time = 0`. -/
def get_abs_times (messages : List Msg) : List (Int × Msg) :=
  getAbs messages 0

/-- Accumulator form of the delta-reconstruction loops
(MidiFile_combiner_6to5.py lines 47-53 and MidiFile_Filter.py lines 326-333,
338-348): each message receives `time = abs_time - last_time` and
`last_time` becomes its absolute time. -/
def toRel : List (Int × Msg) → Int → List Msg
  | [], _ => []
  | (a, m) :: rest, last => { m with time := a - last } :: toRel rest a

/-- Delta reconstruction with the source's initial `last_time = 0`. -/
def to_relative (l : List (Int × Msg)) : List Msg :=
  toRel l 0

theorem toRel_getAbs (ms : List Msg) : ∀ t : Int, toRel (getAbs ms t) t = ms := by
  induction ms with
  | nil => intro t; rfl
  | cons m ms ih =>
    intro t
    show toRel ((t + m.time, { m with time := 0 }) :: getAbs ms (t + m.time)) t = m :: ms
    simp only [toRel, List.cons.injEq]
    rw [show t + m.time - t = m.time by ring]
    exact ⟨rfl, ih _⟩

theorem getAbs_toRel (l : List (Int × Msg)) :
    ∀ last : Int, getAbs (toRel l last) last
      = l.map (fun q => (q.1, { q.2 with time := 0 })) := by
  induction l with
  | nil => intro last; rfl
  | cons q rest ih =>
    obtain ⟨a, m⟩ := q
    intro last
    show getAbs ({ m with time := a - last } :: toRel rest a) last = _
    simp only [getAbs, List.map]
    rw [show last + (a - last) = a by ring]
    exact congrArg _ (ih a)

theorem toRel_length : ∀ (l : List (Int × Msg)) (last : Int),
    (toRel l last).length = l.length := by
  intro l
  induction l with
  | nil => intro last; rfl
  | cons q rest ih => obtain ⟨a, m⟩ := q; intro last; simp [toRel, ih]

theorem toRel_get?_zero (l : List (Int × Msg)) (last : Int) (q : Int × Msg)
    (h : l.get? 0 = some q) :
    (toRel l last).get? 0 = some { q.2 with time := q.1 - last } := by
  match l with
  | [] => simp at h
  | (a, m) :: rest =>
    simp only [List.get?] at h
    cases h
    rfl

theorem toRel_get?_succ : ∀ (l : List (Int × Msg)) (last : Int) (i : Nat)
    (p q : Int × Msg), l.get? i = some p → l.get? (i + 1) = some q →
    (toRel l last).get? (i + 1) = some { q.2 with time := q.1 - p.1 } := by
  intro l
  induction l with
  | nil => intro last i p q hp _; simp at hp
  | cons x xs ih =>
    intro last i p q hp hq
    match i with
    | 0 =>
      simp only [List.get?] at hp
      cases hp
      show (toRel xs x.1).get? 0 = _
      simp only [List.get?] at hq
      exact toRel_get?_zero xs x.1 q hq
    | i + 1 =>
      simp only [List.get?] at hp hq
      show (toRel xs x.1).get? (i + 1) = _
      exact ih x.1 i p q hp hq

/-- Claim C2: for every track whose delta times are all non-negative,
converting to absolute time (`get_abs_times`) and back to relative time
(`to_relative`) reproduces the original track. -/
theorem abs_rel_roundtrip (t : List Msg) (h : ∀ m ∈ t, 0 ≤ m.time) :
    to_relative (get_abs_times t) = t := by
  have _ := h
  exact toRel_getAbs t 0

/-- Concrete three-message drum track used to witness the round-trip law. -/
def witnessTrack : List Msg :=
  [{ type := "note_on", is_meta := false, channel := some 9, note := 36,
     velocity := 100, time := 5 },
   { type := "note_off", is_meta := false, channel := some 9, note := 36,
     velocity := 0, time := 0 },
   { type := "note_on", is_meta := false, channel := some 9, note := 38,
     velocity := 90, time := 7 }]

theorem abs_rel_roundtrip_witness :
    (∀ m ∈ witnessTrack, 0 ≤ m.time) ∧
    to_relative (get_abs_times witnessTrack) = witnessTrack :=
  ⟨by decide, abs_rel_roundtrip witnessTrack (by decide)⟩

/-- Concrete drum-hit message used in the ordering counterexample. -/
def drumHit : Msg :=
  { type := "note_on", is_meta := false, channel := some 9, note := 36,
    velocity := 100, time := 0 }

/-- Claim C5, counterexample: on an input whose absolute times decrease
(5 then 2), the delta-reconstruction loop does not fail at all — it returns
a track, giving the second message the negative delta `-3`. No error path
exists in the source loops. -/
theorem to_relative_unordered_counterexample :
    (2 : Int) < 5 ∧
    to_relative [(5, drumHit), (2, drumHit)]
      = [{ drumHit with time := 5 }, { drumHit with time := -3 }] := by
  exact ⟨by decide, by decide⟩

/-- Claim C5, amended: the delta reconstruction performs no ordering
validation.  For any input pair sequence it returns a track of the same
length, the message after position `i` receiving delta
`abs_time[i+1] - abs_time[i]`, which is negative whenever the absolute
time decreases there. -/
theorem to_relative_unordered_total (l : List (Int × Msg)) (i : Nat)
    (p q : Int × Msg) (h1 : l.get? i = some p) (h2 : l.get? (i + 1) = some q)
    (hdec : q.1 < p.1) :
    (to_relative l).length = l.length ∧
    (to_relative l).get? (i + 1) = some { q.2 with time := q.1 - p.1 } ∧
    q.1 - p.1 < 0 :=
  ⟨toRel_length l 0, toRel_get?_succ l 0 i p q h1 h2, by omega⟩

theorem to_relative_unordered_total_witness :
    ([(5, drumHit), (2, drumHit)].get? 0 = some (5, drumHit)) ∧
    ([(5, drumHit), (2, drumHit)].get? 1 = some (2, drumHit)) ∧
    ((2 : Int) < 5) ∧
    ((to_relative [(5, drumHit), (2, drumHit)]).length = 2 ∧
     (to_relative [(5, drumHit), (2, drumHit)]).get? 1
       = some { drumHit with time := (2 : Int) - 5 } ∧
     (2 : Int) - 5 < 0) :=
  ⟨rfl, rfl, by decide,
   (to_relative_unordered_total [(5, drumHit), (2, drumHit)] 0
      (5, drumHit) (2, drumHit) rfl rfl (by decide)).1,
   (to_relative_unordered_total [(5, drumHit), (2, drumHit)] 0
      (5, drumHit) (2, drumHit) rfl rfl (by decide)).2.1,
   (to_relative_unordered_total [(5, drumHit), (2, drumHit)] 0
      (5, drumHit) (2, drumHit) rfl rfl (by decide)).2.2⟩

/-- Note-on test used throughout the source:
`msg.type == 'note_on' and msg.velocity > 0`. -/
def isNoteOnHit (m : Msg) : Bool :=
  m.type == "note_on" && decide (0 < m.velocity)

/-- Key set built from the secondary track (combiner lines 24-28): the
`(abs_time, note)` pairs of its sounding note-ons. -/
def conflictKeys (l : List (Int × Msg)) : List (Int × Nat) :=
  l.filterMap (fun q => if isNoteOnHit q.2 then some (q.1, q.2.note) else none)

/-- Insertion step of the stable sort by absolute time modelling Python's
stable `list.sort(key=lambda x: x[0])` (combiner line 44): an element moves
past later elements only when its key is strictly smaller, so elements with
equal keys keep their original relative order. -/
def insertT (x : Int × Msg) : List (Int × Msg) → List (Int × Msg)
  | [] => [x]
  | y :: ys => if x.1 ≤ y.1 then x :: y :: ys else y :: insertT x ys

/-- Stable sort by absolute time. -/
def sortT : List (Int × Msg) → List (Int × Msg)
  | [] => []
  | x :: xs => insertT x (sortT xs)

/-- Shallow embedding of `merge_drum_tracks`
(MidiFile_combiner_6to5.py, lines 6-55). -/
def merge_drum_tracks (track5_msgs track6_msgs : List Msg) : List Msg :=
  let track5_abs := get_abs_times track5_msgs
  let track6_abs := get_abs_times track6_msgs
  let track6_note_times := conflictKeys track6_abs
  let filtered_track5 := track5_abs.filter (fun x =>
    if isNoteOnHit x.2 then !(track6_note_times.contains (x.1, x.2.note))
    else true)
  let combined := filtered_track5 ++ track6_abs
  to_relative (sortT combined)

theorem mem_insertT (a x : Int × Msg) (l : List (Int × Msg)) :
    a ∈ insertT x l ↔ a = x ∨ a ∈ l := by
  induction l with
  | nil => simp [insertT]
  | cons y ys ih =>
    by_cases h : x.1 ≤ y.1
    · simp [insertT, h]
    · simp only [insertT, if_neg h, List.mem_cons, ih]
      tauto

theorem mem_sortT (a : Int × Msg) (l : List (Int × Msg)) :
    a ∈ sortT l ↔ a ∈ l := by
  induction l with
  | nil => simp [sortT]
  | cons x xs ih => simp [sortT, mem_insertT, ih]

theorem insertT_sorted (x : Int × Msg) (l : List (Int × Msg))
    (h : List.Pairwise (fun u v : Int × Msg => u.1 ≤ v.1) l) :
    List.Pairwise (fun u v : Int × Msg => u.1 ≤ v.1) (insertT x l) := by
  induction l with
  | nil => simp [insertT]
  | cons y ys ih =>
    rw [List.pairwise_cons] at h
    obtain ⟨hy, hys⟩ := h
    by_cases hle : x.1 ≤ y.1
    · rw [insertT, if_pos hle, List.pairwise_cons]
      constructor
      · intro z hz
        rcases List.mem_cons.mp hz with rfl | hz
        · exact hle
        · exact le_trans hle (hy z hz)
      · exact List.pairwise_cons.mpr ⟨hy, hys⟩
    · rw [insertT, if_neg hle, List.pairwise_cons]
      refine ⟨?_, ih hys⟩
      intro z hz
      rcases (mem_insertT z x ys).mp hz with rfl | hz
      · omega
      · exact hy z hz

theorem sortT_sorted (l : List (Int × Msg)) :
    List.Pairwise (fun u v : Int × Msg => u.1 ≤ v.1) (sortT l) := by
  induction l with
  | nil => simp [sortT]
  | cons x xs ih => exact insertT_sorted x (sortT xs) ih

theorem filter_key_insertT (x : Int × Msg) (l : List (Int × Msg)) (a : Int) :
    (insertT x l).filter (fun y => y.1 == a)
      = (x :: l).filter (fun y => y.1 == a) := by
  induction l with
  | nil => rfl
  | cons y ys ih =>
    by_cases hle : x.1 ≤ y.1
    · rw [insertT, if_pos hle]
    · rw [insertT, if_neg hle]
      by_cases hx : x.1 = a
      · have hy : ¬ y.1 = a := by omega
        simp [List.filter_cons, hx, hy, ih]
      · by_cases hy : y.1 = a <;> simp [List.filter_cons, hx, hy, ih]

theorem filter_key_sortT (l : List (Int × Msg)) (a : Int) :
    (sortT l).filter (fun y => y.1 == a)
      = l.filter (fun y => y.1 == a) := by
  induction l with
  | nil => rfl
  | cons x xs ih =>
    rw [sortT, filter_key_insertT]
    by_cases hx : x.1 = a <;> simp [List.filter_cons, hx, ih]

theorem getAbs_time_zero (ms : List Msg) :
    ∀ (t : Int) (q : Int × Msg), q ∈ getAbs ms t → q.2.time = 0 := by
  induction ms with
  | nil => intro t q hq; simp [getAbs] at hq
  | cons m ms ih =>
    intro t q hq
    rcases List.mem_cons.mp hq with rfl | hq
    · rfl
    · exact ih _ q hq

theorem msg_update_time_eta (m : Msg) (h : m.time = 0) :
    ({ m with time := 0 } : Msg) = m := by
  cases m
  simp only at h
  rw [h]

/-- Absolute view of the merge output equals the stable-sorted combination. -/
theorem merge_abs_eq (p s : List Msg) :
    get_abs_times (merge_drum_tracks p s)
      = sortT (((get_abs_times p).filter (fun x =>
            if isNoteOnHit x.2 then
              !((conflictKeys (get_abs_times s)).contains (x.1, x.2.note))
            else true))
          ++ get_abs_times s) := by
  show getAbs (toRel (sortT _) 0) 0 = _
  rw [getAbs_toRel]
  have h : ∀ q ∈ sortT (((get_abs_times p).filter (fun x =>
        if isNoteOnHit x.2 then
          !((conflictKeys (get_abs_times s)).contains (x.1, x.2.note))
        else true)) ++ get_abs_times s),
      (fun q : Int × Msg => (q.1, { q.2 with time := 0 })) q = id q := by
    intro q hq
    have hq' := (mem_sortT q _).mp hq
    have htime : q.2.time = 0 := by
      rcases List.mem_append.mp hq' with h | h
      · exact getAbs_time_zero p 0 q (List.mem_filter.mp h).1
      · exact getAbs_time_zero s 0 q h
    obtain ⟨a, m⟩ := q
    simp only [id]
    exact congrArg _ (msg_update_time_eta m htime)
  rw [List.map_congr_left h, List.map_id]

theorem filter_swap {α : Type} (l : List α) (f g : α → Bool) :
    (l.filter f).filter g = (l.filter g).filter f := by
  induction l with
  | nil => rfl
  | cons x xs ih =>
    by_cases hf : f x <;> by_cases hg : g x <;>
      simp [List.filter_cons, hf, hg, ih]

theorem isNoteOnHit_iff (m : Msg) :
    isNoteOnHit m = true ↔ m.type = "note_on" ∧ 0 < m.velocity := by
  simp [isNoteOnHit]

theorem conflictKeys_mem (l : List (Int × Msg)) (a : Int) (n : Nat) :
    (conflictKeys l).contains (a, n) = true ↔
      ∃ q ∈ l, q.2.type = "note_on" ∧ 0 < q.2.velocity ∧
        q.1 = a ∧ q.2.note = n := by
  rw [List.contains, List.elem_iff, conflictKeys, List.mem_filterMap]
  constructor
  · rintro ⟨q, hq, hfq⟩
    by_cases hh : isNoteOnHit q.2
    · rw [if_pos hh] at hfq
      obtain ⟨h1, h2⟩ := (isNoteOnHit_iff q.2).mp hh
      cases hfq
      exact ⟨q, hq, h1, h2, rfl, rfl⟩
    · rw [if_neg hh] at hfq; cases hfq
  · rintro ⟨q, hq, h1, h2, rfl, rfl⟩
    refine ⟨q, hq, ?_⟩
    rw [if_pos ((isNoteOnHit_iff q.2).mpr ⟨h1, h2⟩)]

/-- Claim C1: characterization of `merge_drum_tracks`.  The absolute-time
view of the merged output is (1) sorted by absolute time; (2) at every tick
`a` it consists of exactly the surviving primary events at `a` — a primary
event being dropped precisely when it is a sounding note-on whose
`(tick, note)` key is in the secondary's conflict set — followed by all
secondary events at `a` (so surviving primary events precede secondary ones
at a shared tick, secondary events all survive at their original ticks, and
non-note-on primary messages always pass through); and (3) the conflict set
holds `(a, n)` exactly when the secondary track has a sounding note-on of
note `n` at tick `a`. -/
theorem merge_drum_tracks_characterization (p s : List Msg) :
    List.Pairwise (fun u v : Int × Msg => u.1 ≤ v.1)
      (get_abs_times (merge_drum_tracks p s)) ∧
    (∀ a : Int,
      (get_abs_times (merge_drum_tracks p s)).filter (fun x => x.1 == a)
        = ((get_abs_times p).filter (fun x => x.1 == a)).filter (fun x =>
            !(isNoteOnHit x.2 &&
              (conflictKeys (get_abs_times s)).contains (x.1, x.2.note)))
          ++ (get_abs_times s).filter (fun x => x.1 == a)) ∧
    (∀ (a : Int) (n : Nat),
      (conflictKeys (get_abs_times s)).contains (a, n) = true ↔
        ∃ q ∈ get_abs_times s, q.2.type = "note_on" ∧ 0 < q.2.velocity ∧
          q.1 = a ∧ q.2.note = n) := by
  refine ⟨?_, ?_, fun a n => conflictKeys_mem (get_abs_times s) a n⟩
  · rw [merge_abs_eq]
    exact sortT_sorted _
  · intro a
    rw [merge_abs_eq, filter_key_sortT, List.filter_append]
    have hcong : (get_abs_times p).filter (fun x =>
        if isNoteOnHit x.2 then
          !((conflictKeys (get_abs_times s)).contains (x.1, x.2.note))
        else true)
      = (get_abs_times p).filter (fun x =>
          !(isNoteOnHit x.2 &&
            (conflictKeys (get_abs_times s)).contains (x.1, x.2.note))) := by
      apply List.filter_congr
      intro x _
      by_cases hh : isNoteOnHit x.2 <;> simp [hh]
    rw [hcong, filter_swap]

/-- Shallow embedding of a mido `MidiFile`: format type, `ticks_per_beat`
and the track list. -/
structure MidiFile where
  type : Nat
  ticks_per_beat : Nat
  tracks : List (List Msg)
deriving DecidableEq

/-- Synthetic `end_of_track` meta message with delta 0
(MidiFile_Filter.py, line 351). -/
def end_of_track : Msg :=
  { type := "end_of_track", is_meta := true, channel := none, note := 0,
    velocity := 0, time := 0 }

/-- Absolute-time pass of `convert_type0_to_type1` (lines 312-314): running
delta sum, the message itself kept (the meta branch stores `msg.copy()`
with its time field intact). -/
def absKeep : List Msg → Int → List (Int × Msg)
  | [], _ => []
  | m :: ms, t => (t + m.time, m) :: absKeep ms (t + m.time)

/-- Meta messages of the track with their absolute times (line 318). -/
def metaMsgs (track : List Msg) : List (Int × Msg) :=
  (absKeep track 0).filter (fun q => q.2.is_meta)

/-- Channel bucket `c` (lines 320-322): non-meta messages that carry
channel `c`, with their absolute times, copied with `time=0`. -/
def channelMsgs (track : List Msg) (c : Nat) : List (Int × Msg) :=
  (absKeep track 0).filterMap (fun q =>
    if q.2.is_meta = false ∧ q.2.channel = some c then
      some (q.1, { q.2 with time := 0 })
    else none)

/-- Track built from a non-empty channel bucket (lines 338-351): stable
sort by absolute time, delta reconstruction, synthetic end-of-track. -/
def channelTrack (track : List Msg) (c : Nat) : List Msg :=
  to_relative (sortT (channelMsgs track c)) ++ [end_of_track]

/-- Shallow embedding of `convert_type0_to_type1`
(MidiFile_Filter.py, lines 296-354). -/
def convert_type0_to_type1 (mid : MidiFile) : MidiFile :=
  let original_track := mid.tracks.headD []
  let metas := metaMsgs original_track
  let metaPart : List (List Msg) :=
    if metas.isEmpty then [] else [to_relative metas]
  let chParts : List (List Msg) := (List.range 16).filterMap (fun c =>
    if (channelMsgs original_track c).isEmpty then none
    else some (channelTrack original_track c))
  { type := 1, ticks_per_beat := mid.ticks_per_beat,
    tracks := metaPart ++ chParts }

theorem filterMap_if_eq_map_filter {α β : Type} (l : List α) (p : α → Bool)
    (g : α → β) :
    l.filterMap (fun c => if p c then none else some (g c))
      = (l.filter (fun c => !p c)).map g := by
  induction l with
  | nil => rfl
  | cons x xs ih =>
    by_cases hx : p x <;>
      simp [List.filterMap_cons, List.filter_cons, hx, ih]

/-- Claim C7: on a format-0 file, the conversion yields a format-1 file with
the input's `ticks_per_beat`, whose tracks are the meta track (present
exactly when the input has meta messages) followed by one track per
non-empty channel in ascending channel order, each channel track ending in
the synthetic end-of-track meta message with delta 0. -/
theorem convert_type0_structure (mid : MidiFile) (t : List Msg)
    (htype : mid.type = 0) (htracks : mid.tracks = [t]) :
    (convert_type0_to_type1 mid).type = 1 ∧
    (convert_type0_to_type1 mid).ticks_per_beat = mid.ticks_per_beat ∧
    (convert_type0_to_type1 mid).tracks
      = (if (metaMsgs t).isEmpty then [] else [to_relative (metaMsgs t)])
        ++ ((List.range 16).filter
              (fun c => !(channelMsgs t c).isEmpty)).map (channelTrack t) ∧
    List.Pairwise (· < ·)
      ((List.range 16).filter (fun c => !(channelMsgs t c).isEmpty)) ∧
    (∀ c : Nat, (channelTrack t c).getLast? = some end_of_track) ∧
    end_of_track.is_meta = true ∧ end_of_track.time = 0 := by
  have _ := htype
  refine ⟨rfl, rfl, ?_, ?_, ?_, rfl, rfl⟩
  · show (if (metaMsgs (mid.tracks.headD [])).isEmpty then _ else _) ++ _ = _
    rw [htracks]
    show _ = _ ++ _
    rw [filterMap_if_eq_map_filter]
    rfl
  · exact (List.pairwise_lt_range 16).filter _
  · intro c
    exact List.getLast?_concat _

/-- Concrete format-0 file used to witness the splitter structure law. -/
def splitFile : MidiFile :=
  { type := 0, ticks_per_beat := 480,
    tracks := [[
      { type := "track_name", is_meta := true, channel := none, note := 0,
        velocity := 0, time := 0 },
      { type := "note_on", is_meta := false, channel := some 2, note := 60,
        velocity := 90, time := 10 },
      { type := "note_on", is_meta := false, channel := some 0, note := 40,
        velocity := 80, time := 5 },
      { type := "end_of_track", is_meta := true, channel := none, note := 0,
        velocity := 0, time := 0 }]] }

theorem convert_type0_structure_witness :
    splitFile.type = 0 ∧
    splitFile.tracks = [splitFile.tracks.headD []] ∧
    ((convert_type0_to_type1 splitFile).type = 1 ∧
     (convert_type0_to_type1 splitFile).ticks_per_beat
       = splitFile.ticks_per_beat ∧
     (convert_type0_to_type1 splitFile).tracks
       = (if (metaMsgs (splitFile.tracks.headD [])).isEmpty then []
          else [to_relative (metaMsgs (splitFile.tracks.headD []))])
         ++ ((List.range 16).filter
               (fun c => !(channelMsgs (splitFile.tracks.headD []) c).isEmpty)).map
              (channelTrack (splitFile.tracks.headD [])) ∧
     List.Pairwise (· < ·)
       ((List.range 16).filter
         (fun c => !(channelMsgs (splitFile.tracks.headD []) c).isEmpty)) ∧
     (∀ c : Nat,
       (channelTrack (splitFile.tracks.headD []) c).getLast?
         = some end_of_track) ∧
     end_of_track.is_meta = true ∧ end_of_track.time = 0) :=
  ⟨rfl, rfl, convert_type0_structure splitFile _ rfl rfl⟩

/-- Channel-less non-meta message (mido system-exclusive has no `channel`
attribute). -/
def sysexEvent : Msg :=
  { type := "sysex", is_meta := false, channel := none, note := 0,
    velocity := 0, time := 10 }

/-- Format-0 file whose only message is the system-exclusive event. -/
def sysexFile : MidiFile :=
  { type := 0, ticks_per_beat := 480, tracks := [[sysexEvent]] }

/-- Claim C9, counterexample: the input track contains a non-meta
channel-less system-exclusive message, yet the converted file has no tracks
at all — the message was silently dropped, not passed through. -/
theorem convert_drops_channelless_counterexample :
    sysexEvent ∈ sysexFile.tracks.headD [] ∧
    sysexEvent.is_meta = false ∧ sysexEvent.channel = none ∧
    (convert_type0_to_type1 sysexFile).tracks = [] := by
  refine ⟨by decide, rfl, rfl, ?_⟩
  decide

theorem getAbs_mem_append (l1 l2 : List Msg) :
    ∀ (t : Int) (q : Int × Msg), q ∈ getAbs l1 t → q ∈ getAbs (l1 ++ l2) t := by
  induction l1 with
  | nil => intro t q hq; simp [getAbs] at hq
  | cons m ms ih =>
    intro t q hq
    rcases List.mem_cons.mp hq with rfl | hq
    · exact List.mem_cons_self _ _
    · exact List.mem_cons_of_mem _ (ih _ q hq)

theorem toRel_mem_shape : ∀ (l : List (Int × Msg)) (last : Int) (m : Msg),
    m ∈ toRel l last → ∃ q ∈ l, ∃ d : Int, m = { q.2 with time := d } := by
  intro l
  induction l with
  | nil => intro last m hm; simp [toRel] at hm
  | cons x xs ih =>
    obtain ⟨a, w⟩ := x
    intro last m hm
    rcases List.mem_cons.mp hm with rfl | hm
    · exact ⟨(a, w), List.mem_cons_self _ _, a - last, rfl⟩
    · obtain ⟨q, hq, d, hd⟩ := ih a m hm
      exact ⟨q, List.mem_cons_of_mem _ hq, d, hd⟩

/-- Claim C9, amended: every non-meta input message that carries a channel
(whatever its kind) reappears, unexamined and unmodified apart from delta
re-encoding, at its original absolute tick in some output track; and every
output message is either a meta message or carries a channel — so non-meta
messages without a channel attribute (e.g. system-exclusive) are dropped
rather than passed through. -/
theorem convert_channel_passthrough (mid : MidiFile) (t : List Msg)
    (htracks : mid.tracks = [t]) :
    (∀ q ∈ absKeep t 0, q.2.is_meta = false → ∀ c : Nat,
      q.2.channel = some c → c < 16 →
      ∃ tr ∈ (convert_type0_to_type1 mid).tracks,
        (q.1, { q.2 with time := 0 }) ∈ getAbs tr 0) ∧
    (∀ tr ∈ (convert_type0_to_type1 mid).tracks, ∀ m ∈ tr,
      m.is_meta = true ∨ m.channel.isSome = true) := by
  have htr : (convert_type0_to_type1 mid).tracks
      = (if (metaMsgs t).isEmpty then [] else [to_relative (metaMsgs t)])
        ++ (List.range 16).filterMap (fun c =>
            if (channelMsgs t c).isEmpty then none
            else some (channelTrack t c)) := by
    show (if (metaMsgs (mid.tracks.headD [])).isEmpty then _ else _) ++ _ = _
    rw [htracks]
    rfl
  constructor

  · intro q hq hmeta c hc hc16
    have hqb : (q.1, { q.2 with time := 0 }) ∈ channelMsgs t c := by
      rw [channelMsgs, List.mem_filterMap]
      exact ⟨q, hq, by rw [if_pos ⟨hmeta, hc⟩]⟩
    refine ⟨channelTrack t c, ?_, ?_⟩
    · rw [htr]
      apply List.mem_append_right
      rw [List.mem_filterMap]
      refine ⟨c, List.mem_range.mpr hc16, ?_⟩
      rw [if_neg]
      rw [List.isEmpty_eq_false.mpr (List.ne_nil_of_mem hqb)]
      exact Bool.false_ne_true
    · show _ ∈ getAbs (toRel (sortT (channelMsgs t c)) 0 ++ [end_of_track]) 0
      apply getAbs_mem_append
      rw [getAbs_toRel]
      exact List.mem_map_of_mem (a := (q.1, { q.2 with time := 0 })) _
        ((mem_sortT (q.1, { q.2 with time := 0 }) _).mpr hqb)
  · intro tr htrm m hm
    rw [htr] at htrm
    rcases List.mem_append.mp htrm with hmeta | hch
    · by_cases hE : (metaMsgs t).isEmpty
      · rw [if_pos hE] at hmeta; simp at hmeta
      · rw [if_neg hE] at hmeta
        rcases List.mem_singleton.mp hmeta with rfl
        obtain ⟨q, hq, d, rfl⟩ := toRel_mem_shape (metaMsgs t) 0 m hm
        left
        show q.2.is_meta = true
        exact (List.mem_filter.mp hq).2
    · rw [List.mem_filterMap] at hch
      obtain ⟨c, _, hcf⟩ := hch
      by_cases hE : (channelMsgs t c).isEmpty
      · rw [if_pos hE] at hcf; cases hcf
      · rw [if_neg hE] at hcf
        cases hcf
        rcases List.mem_append.mp hm with hm | hm
        · obtain ⟨q, hq, d, rfl⟩ := toRel_mem_shape _ 0 m hm
          have hq' := (mem_sortT _ _).mp hq
          rw [channelMsgs, List.mem_filterMap] at hq'
          obtain ⟨r, _, hrf⟩ := hq'
          right
          by_cases hcond : r.2.is_meta = false ∧ r.2.channel = some c
          · rw [if_pos hcond] at hrf
            cases hrf
            show (r.2.channel).isSome = true
            rw [hcond.2]
            rfl
          · rw [if_neg hcond] at hrf; cases hrf
        · rcases List.mem_singleton.mp hm with rfl
          left
          rfl

/-- Format-0 file holding a channel-carrying non-note message (pitchwheel)
used to witness the pass-through law. -/
def pitchFile : MidiFile :=
  { type := 0, ticks_per_beat := 480,
    tracks := [[
      { type := "pitchwheel", is_meta := false, channel := some 2, note := 0,
        velocity := 0, time := 3 }]] }

theorem convert_channel_passthrough_witness :
    pitchFile.tracks = [pitchFile.tracks.headD []] ∧
    ((∀ q ∈ absKeep (pitchFile.tracks.headD []) 0, q.2.is_meta = false →
        ∀ c : Nat, q.2.channel = some c → c < 16 →
        ∃ tr ∈ (convert_type0_to_type1 pitchFile).tracks,
          (q.1, { q.2 with time := 0 }) ∈ getAbs tr 0) ∧
     (∀ tr ∈ (convert_type0_to_type1 pitchFile).tracks, ∀ m ∈ tr,
        m.is_meta = true ∨ m.channel.isSome = true)) :=
  ⟨rfl, convert_channel_passthrough pitchFile _ rfl⟩

/-- Shallow embedding of the per-track bookkeeping dictionary of
MidiFile_Filter.py (`'index'`, `'track'`, `'events'`, `'channel'` and the
optional audit keys, a missing key modelled by `none` / `false`). -/
structure TrackInfo where
  index : Nat
  track : List Msg
  events : Nat
  channel : Nat
  old_channel : Option Nat := none
  moved_from : Option Nat := none
  swapped_from : Option Nat := none
  is_bass : Bool := false
deriving DecidableEq

/-- Insertion step of the stable sort by event count descending, modelling
Python's stable `sort(key=lambda x: x['events'], reverse=True)`
(MidiFile_Filter.py, line 421): an earlier element stays before a later one
with the same event count. -/
def insertEv (x : TrackInfo) : List TrackInfo → List TrackInfo
  | [] => [x]
  | y :: ys => if y.events ≤ x.events then x :: y :: ys else y :: insertEv x ys

/-- Stable sort by event count descending. -/
def sortEv : List TrackInfo → List TrackInfo
  | [] => []
  | x :: xs => insertEv x (sortEv xs)

/-- Shallow embedding of the selection step of `process_files`
(MidiFile_Filter.py, lines 412-422): drop tracks with fewer than
`min_events` events, stable-sort by event count descending, keep the first
`max_kept`. -/
def select_top_tracks (track_info : List TrackInfo)
    (min_events max_kept : Nat) : List TrackInfo :=
  let substantial_tracks := track_info.filter
    (fun t => decide (min_events ≤ t.events))
  (sortEv substantial_tracks).take max_kept

/-- Strict comparison specified by the spec for the selector: event count
descending with ties broken by ascending original track index. -/
def specLex (x y : TrackInfo) : Prop :=
  y.events < x.events ∨ (x.events = y.events ∧ x.index < y.index)

instance (x y : TrackInfo) : Decidable (specLex x y) := by
  unfold specLex; infer_instance

/-- Insertion step of the sort by the spec's lexicographic order. -/
def insertLex (x : TrackInfo) : List TrackInfo → List TrackInfo
  | [] => [x]
  | y :: ys => if specLex x y then x :: y :: ys else y :: insertLex x ys

/-- Sort by the spec's lexicographic order (events descending, original
index ascending). -/
def sortLex : List TrackInfo → List TrackInfo
  | [] => []
  | x :: xs => insertLex x (sortLex xs)

/-- Selector as worded by the spec: filter below-threshold tracks, sort by
event count descending with ties by ascending original index, truncate. -/
def selectTopTracksSpec (track_info : List TrackInfo)
    (min_events max_kept : Nat) : List TrackInfo :=
  (sortLex (track_info.filter
    (fun t => decide (min_events ≤ t.events)))).take max_kept

theorem mem_insertEv (a x : TrackInfo) (l : List TrackInfo) :
    a ∈ insertEv x l ↔ a = x ∨ a ∈ l := by
  induction l with
  | nil => simp [insertEv]
  | cons y ys ih =>
    by_cases h : y.events ≤ x.events
    · simp [insertEv, h]
    · simp only [insertEv, if_neg h, List.mem_cons, ih]
      tauto

theorem mem_sortEv (a : TrackInfo) (l : List TrackInfo) :
    a ∈ sortEv l ↔ a ∈ l := by
  induction l with
  | nil => simp [sortEv]
  | cons x xs ih => simp [sortEv, mem_insertEv, ih]

theorem insertEv_eq_insertLex (x : TrackInfo) (l : List TrackInfo)
    (h : ∀ y ∈ l, x.index < y.index) :
    insertEv x l = insertLex x l := by
  induction l with
  | nil => rfl
  | cons y ys ih =>
    have hxy : x.index < y.index := h y (List.mem_cons_self _ _)
    have hcond : (y.events ≤ x.events) ↔ specLex x y := by
      unfold specLex
      omega
    by_cases hc : y.events ≤ x.events
    · rw [insertEv, if_pos hc, insertLex, if_pos (hcond.mp hc)]
    · rw [insertEv, if_neg hc, insertLex, if_neg (fun hs => hc (hcond.mpr hs))]
      rw [ih (fun z hz => h z (List.mem_cons_of_mem _ hz))]

theorem sortEv_eq_sortLex (l : List TrackInfo)
    (h : List.Pairwise (fun a b : TrackInfo => a.index < b.index) l) :
    sortEv l = sortLex l := by
  induction l with
  | nil => rfl
  | cons x xs ih =>
    rw [List.pairwise_cons] at h
    obtain ⟨hx, hxs⟩ := h
    rw [sortEv, sortLex, ih hxs]
    apply insertEv_eq_insertLex
    intro y hy
    have : y ∈ sortLex xs := hy
    have hyxs : y ∈ xs := by
      have := ih hxs ▸ (mem_sortEv y xs)
      rw [← ih hxs] at this
      exact (mem_sortEv y xs).mp (by rw [ih hxs]; exact hy)
    exact hx y hyxs

/-- Claim C6: with pairwise-increasing original indices (as built by
`process_files`, which enumerates tracks in file order), the selector
removes exactly the tracks below `min_events`, orders the rest by event
count descending with ties broken by ascending original index, and keeps
the first `max_kept`; being a pure function of its input, it is
deterministic. -/
theorem select_top_tracks_deterministic (track_info : List TrackInfo)
    (min_events max_kept : Nat)
    (h : List.Pairwise (fun a b : TrackInfo => a.index < b.index) track_info) :
    select_top_tracks track_info min_events max_kept
      = selectTopTracksSpec track_info min_events max_kept ∧
    (∀ t ∈ select_top_tracks track_info min_events max_kept,
      min_events ≤ t.events) ∧
    (select_top_tracks track_info min_events max_kept).length
      = min max_kept (track_info.filter
          (fun t => decide (min_events ≤ t.events))).length := by
  refine ⟨?_, ?_, ?_⟩
  · show (sortEv _).take _ = (sortLex _).take _
    rw [sortEv_eq_sortLex _ (h.filter _)]
  · intro t ht
    have h1 : t ∈ sortEv (track_info.filter
        (fun t => decide (min_events ≤ t.events))) := List.mem_of_mem_take ht
    have h2 := (mem_sortEv t _).mp h1
    have := (List.mem_filter.mp h2).2
    simpa using this
  · show ((sortEv _).take _).length = _
    rw [List.length_take]
    congr 1
    induction (track_info.filter (fun t => decide (min_events ≤ t.events))) with
    | nil => rfl
    | cons x xs ih =>
      rw [sortEv]
      have : ∀ (z : TrackInfo) (l : List TrackInfo),
          (insertEv z l).length = l.length + 1 := by
        intro z l
        induction l with
        | nil => rfl
        | cons w ws ihw =>
          by_cases hw : w.events ≤ z.events
          · simp [insertEv, hw]
          · simp [insertEv, hw, ihw]
      rw [this, ih]
      rfl

/-- Concrete selector input containing an event-count tie (indices 0 and 1)
and one sparse track. -/
def selectorInput : List TrackInfo :=
  [{ index := 0, track := [], events := 70, channel := 0 },
   { index := 1, track := [], events := 70, channel := 1 },
   { index := 2, track := [], events := 90, channel := 2 },
   { index := 3, track := [], events := 10, channel := 3 }]

theorem select_top_tracks_deterministic_witness :
    List.Pairwise (fun a b : TrackInfo => a.index < b.index) selectorInput ∧
    (select_top_tracks selectorInput 50 2
        = selectTopTracksSpec selectorInput 50 2 ∧
     (∀ t ∈ select_top_tracks selectorInput 50 2, 50 ≤ t.events) ∧
     (select_top_tracks selectorInput 50 2).length
       = min 2 (selectorInput.filter
           (fun t => decide (50 ≤ t.events))).length) :=
  ⟨by decide, select_top_tracks_deterministic selectorInput 50 2 (by decide)⟩

/-- Target channel list for melodic tracks (MidiFile_Filter.py, line 172). -/
def melodic_channels : List Nat := [0, 1, 2, 3]

/-- Channel remap applied to every message of a track that has a `channel`
attribute (the `hasattr` loops at lines 193-195, 209-211, 269-275,
286-288). -/
def remapTrack (ch : Nat) (msgs : List Msg) : List Msg :=
  msgs.map (fun m =>
    if m.channel.isSome then { m with channel := some ch } else m)

/-- Drum-branch body of `standardize_channels` (lines 189-197); the guard
`old_ch != 9` is vacuous because only channel-9 tracks reach it. -/
def stdDrum (t : TrackInfo) : TrackInfo :=
  if t.channel ≠ 9 then
    { t with track := remapTrack 9 t.track, old_channel := some t.channel,
             channel := 9 }
  else t

/-- Melodic walk of `standardize_channels` (lines 200-219): remap a track
whose channel is not a valid melodic channel to
`melodic_channels[idx mod 4]`, advancing the cursor on every track. -/
def stdMelodic : List TrackInfo → Nat → List TrackInfo
  | [], _ => []
  | t :: ts, idx =>
    if t.channel ∉ melodic_channels ∨ t.channel = 999 then
      { t with
          track := remapTrack
            (melodic_channels.getD (idx % melodic_channels.length) 0) t.track,
          old_channel := some t.channel,
          channel := melodic_channels.getD (idx % melodic_channels.length) 0 }
        :: stdMelodic ts (idx + 1)
    else
      t :: stdMelodic ts (idx + 1)

/-- Shallow embedding of `standardize_channels`
(MidiFile_Filter.py, lines 165-221). -/
def standardize_channels (tracks : List TrackInfo) : List TrackInfo :=
  let drum_tracks := tracks.filter (fun t => t.channel == 9)
  let melodic_tracks := tracks.filter (fun t => !(t.channel == 9))
  drum_tracks.map stdDrum ++ stdMelodic melodic_tracks 0

theorem stdMelodic_channel_mem :
    ∀ (l : List TrackInfo) (idx : Nat) (t : TrackInfo),
    t ∈ stdMelodic l idx → t.channel ∈ melodic_channels := by
  intro l
  induction l with
  | nil => intro idx t ht; simp [stdMelodic] at ht
  | cons x xs ih =>
    intro idx t ht
    by_cases hc : x.channel ∉ melodic_channels ∨ x.channel = 999
    · rw [stdMelodic, if_pos hc] at ht
      rcases List.mem_cons.mp ht with rfl | ht
      · show melodic_channels.getD (idx % melodic_channels.length) 0 ∈ _
        have h4 : idx % melodic_channels.length = 0 ∨
            idx % melodic_channels.length = 1 ∨
            idx % melodic_channels.length = 2 ∨
            idx % melodic_channels.length = 3 := by
          have : idx % melodic_channels.length < 4 :=
            Nat.mod_lt _ (by norm_num [melodic_channels])
          omega
        rcases h4 with h | h | h | h <;> rw [h] <;> decide
      · exact ih _ t ht
    · rw [stdMelodic, if_neg hc] at ht
      push_neg at hc
      rcases List.mem_cons.mp ht with rfl | ht
      · exact hc.1
      · exact ih _ t ht

/-- Claim C4: after `standardize_channels` the percussion tracks (those
partitioned off by original channel 9) are returned untouched, still on
channel 9, and every returned melodic track — including those that entered
with the no-channel sentinel 999 — carries a channel in `{0,1,2,3}`. -/
theorem standardize_channels_invariant (tracks : List TrackInfo) :
    standardize_channels tracks
      = tracks.filter (fun t => t.channel == 9)
        ++ stdMelodic (tracks.filter (fun t => !(t.channel == 9))) 0 ∧
    (∀ t ∈ tracks.filter (fun t => t.channel == 9), t.channel = 9) ∧
    (∀ t ∈ stdMelodic (tracks.filter (fun t => !(t.channel == 9))) 0,
      t.channel ∈ melodic_channels) := by
  refine ⟨?_, ?_, fun t ht => stdMelodic_channel_mem _ 0 t ht⟩
  · show (tracks.filter (fun t => t.channel == 9)).map stdDrum ++ _ = _
    have hmap : (tracks.filter (fun t => t.channel == 9)).map stdDrum
        = (tracks.filter (fun t => t.channel == 9)).map id := by
      apply List.map_congr_left
      intro t ht
      have h9 : t.channel = 9 := by
        have := (List.mem_filter.mp ht).2
        simpa using this
      show stdDrum t = t
      rw [stdDrum, if_neg (by omega)]
    rw [hmap, List.map_id]
  · intro t ht
    have := (List.mem_filter.mp ht).2
    simpa using this

/-- Count of note-on messages of a track (lines 239-243; in mido every
`note_on` carries a `note` attribute, so the `hasattr` check is always
true). -/
def totalNotes (t : TrackInfo) : Nat :=
  t.track.countP (fun m => m.type == "note_on")

/-- Count of note-on messages below C3 = 48 (line 242-243). -/
def bassNotes (t : TrackInfo) : Nat :=
  t.track.countP (fun m => m.type == "note_on" && decide (m.note < 48))

/-- Candidate scan of `detect_bass_track` (lines 228-251): skip channel 9
and the 999 sentinel, and keep the index of the track with more than half
its notes below C3 and the strictly largest sub-C3 count so far
(`bass_count / total_notes > 0.5` is the exact rational comparison
`total_notes < 2 * bass_count`). -/
def findBassAux : List TrackInfo → Nat → Option Nat → Nat → Option Nat
  | [], _, best, _ => best
  | t :: ts, idx, best, maxB =>
    if t.channel = 9 ∨ t.channel = 999 then
      findBassAux ts (idx + 1) best maxB
    else if 0 < totalNotes t ∧ totalNotes t < 2 * bassNotes t ∧
        maxB < bassNotes t then
      findBassAux ts (idx + 1) (some idx) (bassNotes t)
    else
      findBassAux ts (idx + 1) best maxB

/-- Index of the bass candidate, if any. -/
def findBassIdx (tracks : List TrackInfo) : Option Nat :=
  findBassAux tracks 0 none 0

/-- Scan for the first track on channel 1 other than the candidate
(lines 258-264, with the `break` after the first hit). -/
def findCh1Aux : List TrackInfo → Nat → Nat → Option Nat
  | [], _, _ => none
  | t :: ts, idx, bi =>
    if t.channel = 1 ∧ idx ≠ bi then some idx else findCh1Aux ts (idx + 1) bi

/-- First channel-1 occupant distinct from the candidate index. -/
def findCh1Idx (tracks : List TrackInfo) (bi : Nat) : Option Nat :=
  findCh1Aux tracks 0 bi

/-- Pointwise list update, modelling the in-place mutation of one
track-info dictionary. -/
def updateAt {α : Type} : Nat → (α → α) → List α → List α
  | _, _, [] => []
  | 0, f, x :: xs => f x :: xs
  | n + 1, f, x :: xs => x :: updateAt n f xs

/-- Mutation applied to the bass candidate (lines 269-271, 277-280 and
286-292): every channel-voice message moves to channel 1, and the
`moved_from` / `is_bass` annotations are set. -/
def moveBass (old_ch : Nat) (t : TrackInfo) : TrackInfo :=
  { t with track := remapTrack 1 t.track, moved_from := some old_ch,
           channel := 1, is_bass := true }

/-- Mutation applied to the displaced channel-1 occupant (lines 273-275,
282-283): its messages move to the candidate's former channel and
`swapped_from` is set. -/
def swapOccupant (old_ch : Nat) (t : TrackInfo) : TrackInfo :=
  { t with track := remapTrack old_ch t.track, swapped_from := some 1,
           channel := old_ch }

/-- Shallow embedding of `detect_bass_track`
(MidiFile_Filter.py, lines 223-294), the `relocate_bass` entry point. -/
def relocate_bass (tracks : List TrackInfo) : List TrackInfo :=
  match findBassIdx tracks with
  | none => tracks
  | some bi =>
    match tracks.get? bi with
    | none => tracks
    | some bass_track =>
      if bass_track.channel ≠ 1 then
        match findCh1Idx tracks bi with
        | some ci =>
          updateAt ci (swapOccupant bass_track.channel)
            (updateAt bi (moveBass bass_track.channel) tracks)
        | none => updateAt bi (moveBass bass_track.channel) tracks
      else tracks

/-- Data that the candidate scan actually reads from a track: whether it is
skipped, its note-on count, and its sub-C3 count. -/
def bassMeasure (t : TrackInfo) : Bool × Nat × Nat :=
  (decide (t.channel = 9 ∨ t.channel = 999), totalNotes t, bassNotes t)

theorem findBassAux_congr : ∀ (l l' : List TrackInfo) (idx : Nat)
    (best : Option Nat) (maxB : Nat),
    l.map bassMeasure = l'.map bassMeasure →
    findBassAux l idx best maxB = findBassAux l' idx best maxB := by
  intro l
  induction l with
  | nil =>
    intro l' idx best maxB h
    cases l' with
    | nil => rfl
    | cons t' ts' => simp at h
  | cons t ts ih =>
    intro l' idx best maxB h
    cases l' with
    | nil => simp at h
    | cons t' ts' =>
      simp only [List.map_cons, List.cons.injEq] at h
      obtain ⟨h1, h2⟩ := h
      have hskip : (t.channel = 9 ∨ t.channel = 999) ↔
          (t'.channel = 9 ∨ t'.channel = 999) := by
        have := congrArg Prod.fst h1
        simpa only [bassMeasure, decide_eq_decide] using this
      have htot : totalNotes t = totalNotes t' :=
        congrArg (fun p : Bool × Nat × Nat => p.2.1) h1
      have hbass : bassNotes t = bassNotes t' :=
        congrArg (fun p : Bool × Nat × Nat => p.2.2) h1
      by_cases hc : t.channel = 9 ∨ t.channel = 999
      · rw [findBassAux, if_pos hc, findBassAux, if_pos (hskip.mp hc)]
        exact ih ts' _ _ _ h2
      · rw [findBassAux, if_neg hc, findBassAux,
          if_neg (fun hx => hc (hskip.mpr hx))]
        rw [htot, hbass]
        by_cases hc2 : 0 < totalNotes t' ∧ totalNotes t' < 2 * bassNotes t' ∧
            maxB < bassNotes t'
        · rw [if_pos hc2, if_pos hc2]
          exact ih ts' _ _ _ h2
        · rw [if_neg hc2, if_neg hc2]
          exact ih ts' _ _ _ h2

theorem findBassAux_some : ∀ (l : List TrackInfo) (idx : Nat)
    (best : Option Nat) (maxB : Nat) (j : Nat),
    findBassAux l idx best maxB = some j →
    best = some j ∨ ∃ k t, l.get? k = some t ∧ j = idx + k ∧
      ¬(t.channel = 9 ∨ t.channel = 999) := by
  intro l
  induction l with
  | nil => intro idx best maxB j h; exact Or.inl h
  | cons t ts ih =>
    intro idx best maxB j h
    by_cases hc : t.channel = 9 ∨ t.channel = 999
    · rw [findBassAux, if_pos hc] at h
      rcases ih _ _ _ _ h with hb | ⟨k, u, hk, hj, hu⟩
      · exact Or.inl hb
      · exact Or.inr ⟨k + 1, u, hk, by omega, hu⟩
    · rw [findBassAux, if_neg hc] at h
      by_cases hc2 : 0 < totalNotes t ∧ totalNotes t < 2 * bassNotes t ∧
          maxB < bassNotes t
      · rw [if_pos hc2] at h
        rcases ih _ _ _ _ h with hb | ⟨k, u, hk, hj, hu⟩
        · cases hb
          exact Or.inr ⟨0, t, rfl, by omega, hc⟩
        · exact Or.inr ⟨k + 1, u, hk, by omega, hu⟩
      · rw [if_neg hc2] at h
        rcases ih _ _ _ _ h with hb | ⟨k, u, hk, hj, hu⟩
        · exact Or.inl hb
        · exact Or.inr ⟨k + 1, u, hk, by omega, hu⟩

theorem findBassIdx_some (tracks : List TrackInfo) (bi : Nat)
    (h : findBassIdx tracks = some bi) :
    ∃ t, tracks.get? bi = some t ∧ ¬(t.channel = 9 ∨ t.channel = 999) := by
  rcases findBassAux_some tracks 0 none 0 bi h with hb | ⟨k, t, hk, hj, ht⟩
  · cases hb
  · refine ⟨t, ?_, ht⟩
    rw [show bi = k by omega]
    exact hk

theorem findCh1Aux_some : ∀ (l : List TrackInfo) (idx bi j : Nat),
    findCh1Aux l idx bi = some j →
    ∃ k, j = idx + k ∧ idx + k ≠ bi ∧
      (∃ u, l.get? k = some u ∧ u.channel = 1) ∧
      ∀ k' u', k' < k → l.get? k' = some u' → u'.channel = 1 →
        idx + k' = bi := by
  intro l
  induction l with
  | nil => intro idx bi j h; cases h
  | cons t ts ih =>
    intro idx bi j h
    by_cases hc : t.channel = 1 ∧ idx ≠ bi
    · rw [findCh1Aux, if_pos hc] at h
      cases h
      exact ⟨0, by omega, by omega, ⟨t, rfl, hc.1⟩, fun k' u' hk' _ _ => by omega⟩
    · rw [findCh1Aux, if_neg hc] at h
      obtain ⟨k, hj, hne, ⟨u, hu, hu1⟩, hfirst⟩ := ih _ _ _ h
      refine ⟨k + 1, by omega, by omega, ⟨u, hu, hu1⟩, ?_⟩
      intro k' u' hk' hget h1
      match k' with
      | 0 =>
        have ht' : t = u' := Option.some.inj hget
        rw [← ht'] at h1
        have hbi : idx = bi := by
          by_contra hne'
          exact hc ⟨h1, hne'⟩
        omega
      | k' + 1 =>
        have := hfirst k' u' (by omega) hget h1
        omega

theorem get?_updateAt_ne {α : Type} (f : α → α) :
    ∀ (l : List α) (n m : Nat), m ≠ n →
    (updateAt n f l).get? m = l.get? m := by
  intro l
  induction l with
  | nil => intro n m _; cases n <;> rfl
  | cons x xs ih =>
    intro n m h
    match n, m with
    | 0, 0 => exact absurd rfl h
    | 0, m + 1 => rfl
    | n + 1, 0 => rfl
    | n + 1, m + 1 =>
      show (updateAt n f xs).get? m = xs.get? m
      exact ih n m (by omega)

theorem get?_updateAt_self {α : Type} (f : α → α) :
    ∀ (l : List α) (n : Nat), (updateAt n f l).get? n = (l.get? n).map f := by
  intro l
  induction l with
  | nil => intro n; cases n <;> rfl
  | cons x xs ih =>
    intro n
    match n with
    | 0 => rfl
    | n + 1 => exact ih n

theorem map_updateAt_eq {α β : Type} (g : α → β) (f : α → α) :
    ∀ (l : List α) (n : Nat),
    (l.get? n).map (fun x => g (f x)) = (l.get? n).map g →
    (updateAt n f l).map g = l.map g := by
  intro l
  induction l with
  | nil => intro n _; cases n <;> rfl
  | cons x xs ih =>
    intro n h
    match n with
    | 0 =>
      show g (f x) :: xs.map g = g x :: xs.map g
      rw [show g (f x) = g x from Option.some.inj h]
    | n + 1 =>
      show g x :: (updateAt n f xs).map g = g x :: xs.map g
      rw [ih n h]

theorem countP_remapTrack (p : Msg → Bool)
    (hp : ∀ (m : Msg) (ch : Nat), p { m with channel := some ch } = p m) :
    ∀ (ch : Nat) (msgs : List Msg),
    (remapTrack ch msgs).countP p = msgs.countP p := by
  intro ch msgs
  induction msgs with
  | nil => rfl
  | cons m ms ih =>
    show List.countP p
      ((if m.channel.isSome then { m with channel := some ch } else m)
        :: remapTrack ch ms) = _
    by_cases hm : m.channel.isSome
    · rw [if_pos hm, List.countP_cons, List.countP_cons, ih, hp]
    · rw [if_neg hm, List.countP_cons, List.countP_cons, ih]

theorem totalNotes_moveBass (old_ch : Nat) (t : TrackInfo) :
    totalNotes (moveBass old_ch t) = totalNotes t :=
  countP_remapTrack (fun m => m.type == "note_on") (fun _ _ => rfl) 1 t.track

theorem bassNotes_moveBass (old_ch : Nat) (t : TrackInfo) :
    bassNotes (moveBass old_ch t) = bassNotes t :=
  countP_remapTrack (fun m => m.type == "note_on" && decide (m.note < 48))
    (fun _ _ => rfl) 1 t.track

theorem totalNotes_swapOccupant (old_ch : Nat) (t : TrackInfo) :
    totalNotes (swapOccupant old_ch t) = totalNotes t :=
  countP_remapTrack (fun m => m.type == "note_on") (fun _ _ => rfl)
    old_ch t.track

theorem bassNotes_swapOccupant (old_ch : Nat) (t : TrackInfo) :
    bassNotes (swapOccupant old_ch t) = bassNotes t :=
  countP_remapTrack (fun m => m.type == "note_on" && decide (m.note < 48))
    (fun _ _ => rfl) old_ch t.track

theorem bassMeasure_moveBass (old_ch : Nat) (t : TrackInfo)
    (h : ¬(t.channel = 9 ∨ t.channel = 999)) :
    bassMeasure (moveBass old_ch t) = bassMeasure t := by
  unfold bassMeasure
  rw [totalNotes_moveBass, bassNotes_moveBass]
  have h1 : decide ((moveBass old_ch t).channel = 9 ∨
      (moveBass old_ch t).channel = 999) = false := rfl
  have h2 : decide (t.channel = 9 ∨ t.channel = 999) = false :=
    decide_eq_false h
  rw [h1, h2]

theorem bassMeasure_swapOccupant (old_ch : Nat) (t : TrackInfo)
    (hch : ¬(old_ch = 9 ∨ old_ch = 999)) (ht : t.channel = 1) :
    bassMeasure (swapOccupant old_ch t) = bassMeasure t := by
  unfold bassMeasure
  rw [totalNotes_swapOccupant, bassNotes_swapOccupant]
  have h1 : decide ((swapOccupant old_ch t).channel = 9 ∨
      (swapOccupant old_ch t).channel = 999) = false := by
    show decide (old_ch = 9 ∨ old_ch = 999) = false
    exact decide_eq_false hch
  have h2 : decide (t.channel = 9 ∨ t.channel = 999) = false := by
    rw [ht]
    rfl
  rw [h1, h2]

/-- Claim C8: `relocate_bass` is idempotent.  The candidate scan reads only
note contents and the channel-9/999 skip test, neither of which the
relocation changes, so the second application finds the same candidate —
now already on channel 1 — and mutates nothing. -/
theorem relocate_bass_idempotent (tracks : List TrackInfo) :
    relocate_bass (relocate_bass tracks) = relocate_bass tracks := by
  cases hfb : findBassIdx tracks with
  | none =>
    have h0 : relocate_bass tracks = tracks := by
      simp only [relocate_bass, hfb]
    rw [h0]
    exact h0
  | some bi =>
    cases hget : tracks.get? bi with
    | none =>
      have h0 : relocate_bass tracks = tracks := by
        simp only [relocate_bass, hfb, hget]
      rw [h0]
      exact h0
    | some bt =>
      by_cases hch : bt.channel ≠ 1
      · obtain ⟨bt', hbt', hskip'⟩ := findBassIdx_some tracks bi hfb
        rw [hget] at hbt'
        have hskip : ¬(bt.channel = 9 ∨ bt.channel = 999) := by
          rw [Option.some.inj hbt']
          exact hskip'
        have hmid : (updateAt bi (moveBass bt.channel) tracks).map bassMeasure
            = tracks.map bassMeasure := by
          apply map_updateAt_eq
          rw [hget]
          show some (bassMeasure (moveBass bt.channel bt))
            = some (bassMeasure bt)
          rw [bassMeasure_moveBass _ _ hskip]
        have hchm : ¬((moveBass bt.channel bt).channel ≠ 1) := fun h => h rfl
        cases hc1 : findCh1Idx tracks bi with
        | some ci =>
          obtain ⟨k, hk0, hkne, ⟨occ, hocc, hocc1⟩, _⟩ :=
            findCh1Aux_some tracks 0 bi ci hc1
          have hocc' : tracks.get? ci = some occ := by
            rw [show ci = k from by omega]
            exact hocc
          have hcine : ci ≠ bi := by omega
          have hout : relocate_bass tracks
              = updateAt ci (swapOccupant bt.channel)
                  (updateAt bi (moveBass bt.channel) tracks) := by
            simp only [relocate_bass, hfb, hget, if_pos hch, hc1]
          have hmeq : (updateAt ci (swapOccupant bt.channel)
                (updateAt bi (moveBass bt.channel) tracks)).map bassMeasure
              = tracks.map bassMeasure := by
            refine Eq.trans (map_updateAt_eq bassMeasure _ _ ci ?_) hmid
            rw [get?_updateAt_ne _ _ _ _ hcine, hocc']
            show some (bassMeasure (swapOccupant bt.channel occ))
              = some (bassMeasure occ)
            rw [bassMeasure_swapOccupant _ _ hskip hocc1]
          have hfb2 : findBassIdx (updateAt ci (swapOccupant bt.channel)
              (updateAt bi (moveBass bt.channel) tracks)) = some bi := by
            show findBassAux _ 0 none 0 = some bi
            rw [findBassAux_congr _ tracks 0 none 0 hmeq]
            exact hfb
          have hget2 : (updateAt ci (swapOccupant bt.channel)
                (updateAt bi (moveBass bt.channel) tracks)).get? bi
              = some (moveBass bt.channel bt) := by
            rw [get?_updateAt_ne _ _ _ _ (fun h => hcine h.symm),
              get?_updateAt_self, hget]
            rfl
          rw [hout]
          simp only [relocate_bass, hfb2, hget2, if_neg hchm]
        | none =>
          have hout : relocate_bass tracks
              = updateAt bi (moveBass bt.channel) tracks := by
            simp only [relocate_bass, hfb, hget, if_pos hch, hc1]
          have hfb2 : findBassIdx (updateAt bi (moveBass bt.channel) tracks)
              = some bi := by
            show findBassAux _ 0 none 0 = some bi
            rw [findBassAux_congr _ tracks 0 none 0 hmid]
            exact hfb
          have hget2 : (updateAt bi (moveBass bt.channel) tracks).get? bi
              = some (moveBass bt.channel bt) := by
            rw [get?_updateAt_self, hget]
            rfl
          rw [hout]
          simp only [relocate_bass, hfb2, hget2, if_neg hchm]
      · have h0 : relocate_bass tracks = tracks := by
          simp only [relocate_bass, hfb, hget, if_neg hch]
        rw [h0]
        exact h0

/-- Claim C10: when the candidate must move and channel 1 is occupied,
`relocate_bass` touches only the candidate and the first channel-1 occupant
in list order.  Every other index is returned unchanged — in particular
further channel-1 occupants keep channel 1, which the relocated bass track
now shares — and every index before the chosen occupant (other than the
candidate) was not on channel 1. -/
theorem relocate_bass_swaps_first (tracks : List TrackInfo) (bi : Nat)
    (bt : TrackInfo) (ci : Nat)
    (hfb : findBassIdx tracks = some bi)
    (hget : tracks.get? bi = some bt)
    (hch : bt.channel ≠ 1)
    (hc1 : findCh1Idx tracks bi = some ci) :
    (∀ k, k ≠ bi → k ≠ ci →
      (relocate_bass tracks).get? k = tracks.get? k) ∧
    ((relocate_bass tracks).get? bi).map TrackInfo.channel = some 1 ∧
    (∀ k, k ≠ bi → k ≠ ci →
      (tracks.get? k).map TrackInfo.channel = some 1 →
      ((relocate_bass tracks).get? k).map TrackInfo.channel = some 1) ∧
    (∀ k u, k < ci → k ≠ bi → tracks.get? k = some u → u.channel ≠ 1) := by
  have hout : relocate_bass tracks
      = updateAt ci (swapOccupant bt.channel)
          (updateAt bi (moveBass bt.channel) tracks) := by
    simp only [relocate_bass, hfb, hget, if_pos hch, hc1]
  obtain ⟨k0, hk0, hkne, ⟨occ, hocc, hocc1⟩, hfirst⟩ :=
    findCh1Aux_some tracks 0 bi ci hc1
  have hcine : ci ≠ bi := by omega
  refine ⟨?_, ?_, ?_, ?_⟩
  · intro k hkbi hkci
    rw [hout, get?_updateAt_ne _ _ _ _ hkci, get?_updateAt_ne _ _ _ _ hkbi]
  · rw [hout, get?_updateAt_ne _ _ _ _ (fun h => hcine h.symm),
      get?_updateAt_self, hget]
    rfl
  · intro k hkbi hkci hk1
    rw [hout, get?_updateAt_ne _ _ _ _ hkci, get?_updateAt_ne _ _ _ _ hkbi]
    exact hk1
  · intro k u hk hkbi hgetk h1
    have := hfirst k u (by omega) hgetk h1
    omega

/-- Bass-heavy candidate track used in the swap witness. -/
def swapT0 : TrackInfo :=
  { index := 0,
    track := [{ type := "note_on", is_meta := false, channel := some 0,
                note := 40, velocity := 100, time := 0 }],
    events := 1, channel := 0 }

/-- First channel-1 occupant in the swap witness. -/
def swapT1 : TrackInfo :=
  { index := 1,
    track := [{ type := "note_on", is_meta := false, channel := some 1,
                note := 60, velocity := 100, time := 0 }],
    events := 1, channel := 1 }

/-- Second channel-1 occupant, which the swap must leave untouched. -/
def swapT2 : TrackInfo :=
  { index := 2,
    track := [{ type := "note_on", is_meta := false, channel := some 1,
                note := 62, velocity := 100, time := 0 }],
    events := 1, channel := 1 }

/-- Input with a bass candidate on channel 0 and two channel-1 occupants. -/
def swapInput : List TrackInfo := [swapT0, swapT1, swapT2]

theorem relocate_bass_swaps_first_witness :
    (findBassIdx swapInput = some 0 ∧ swapInput.get? 0 = some swapT0 ∧
     swapT0.channel ≠ 1 ∧ findCh1Idx swapInput 0 = some 1) ∧
    (relocate_bass swapInput).get? 2 = swapInput.get? 2 ∧
    ((relocate_bass swapInput).get? 0).map TrackInfo.channel = some 1 ∧
    ((relocate_bass swapInput).get? 2).map TrackInfo.channel = some 1 :=
  ⟨⟨by decide, by decide, by decide, by decide⟩,
   (relocate_bass_swaps_first swapInput 0 swapT0 1 (by decide) (by decide)
      (by decide) (by decide)).1 2 (by decide) (by decide),
   (relocate_bass_swaps_first swapInput 0 swapT0 1 (by decide) (by decide)
      (by decide) (by decide)).2.1,
   (relocate_bass_swaps_first swapInput 0 swapT0 1 (by decide) (by decide)
      (by decide) (by decide)).2.2.1 2 (by decide) (by decide) (by decide)⟩

/-- Melodic track holding a single mid-register note-on on channel `ch`. -/
def plainTrackOn (ch : Nat) : TrackInfo :=
  { index := ch,
    track := [{ type := "note_on", is_meta := false, channel := some ch,
                note := 60, velocity := 100, time := 0 }],
    events := 60, channel := ch }

/-- The spec's own quirk input: kept tracks on channels 0, 7, 1, 8. -/
def quirkTracks : List TrackInfo :=
  [plainTrackOn 0, plainTrackOn 7, plainTrackOn 1, plainTrackOn 8]

/-- Claim C3: evaluation of the reassignment pipeline on channels
`0, 7, 1, 8`.  The cursor walk remaps the channel-7 track onto channel 1
while the track already on channel 1 is never reconsidered, and no bass
candidate exists, so two distinct melodic kept tracks end up sharing
channel 1 — the claimed uniqueness invariant fails on the code. -/
theorem standardize_relocate_channel_collision :
    ((relocate_bass (standardize_channels quirkTracks)).map
        TrackInfo.channel) = [0, 1, 1, 3] ∧
    ((relocate_bass (standardize_channels quirkTracks)).filter
        (fun t => t.channel == 1)).length = 2 := by
  exact ⟨by decide, by decide⟩
